import Mathlib

/-!
Verification of the Arabic content-moderation bot (`src/main.py`).

The development shallowly embeds the program's pure logic:

* `normalize_arabic_text` — the text normalizer (`ArabicContentModerator.normalize_arabic_text`);
* `bad_words` — the expanded profanity lexicon (`ArabicContentModerator._compile_bad_words`);
* `lexicon_match` / `contains_bad_words` — the two-phase detector
  (`ArabicContentModerator.contains_bad_words`), with the remote generative-model
  call abstracted as an oracle `String → Except String String` (normal response
  text, or a raised exception);
* `moderate_message` — the message-event handler (`ContentModerationBot.moderate_message`),
  returning the list of platform calls it performs;
* `get_api_keys_check` — the credential validation in `get_api_keys`.

Unicode-dependent primitives (`unicodedata.normalize('NFKD', ·)` plus
`unicodedata.combining`, `str.split()` whitespace, `str.lower`/`str.upper`) are
modelled on the fragment of Unicode exercised by the program: the Arabic block,
ASCII, and the whitespace characters.  Outside the modelled fragment a character
is taken to be decomposition-stable, non-combining and caseless, which matches
CPython on all characters appearing in the lexicon and in Arabic/ASCII message
text.  Strings are handled through their underlying character lists
(`String.data`), and CPython's single-character `str.replace` is character-wise
substitution.
-/

/-- Model of CPython's whitespace test used by `str.split()`: the set of
code points `c` with `chr(c).isspace()` (the full CPython list). -/
def isSpacePy (c : Char) : Bool :=
  let n := c.toNat
  (9 ≤ n && n ≤ 13) || (28 ≤ n && n ≤ 32) || n == 133 || n == 160 || n == 5760 ||
    (8192 ≤ n && n ≤ 8202) || n == 8232 || n == 8233 || n == 8239 || n == 8287 ||
    n == 12288

/-- Model of `unicodedata.combining(c) != 0` on the fragment relevant to the
program: the combining-diacritic ranges of the Latin, Hebrew and Arabic blocks
plus the combining marks for symbols and the combining half marks. -/
def isCombining (c : Char) : Bool :=
  let n := c.toNat
  (0x300 ≤ n && n ≤ 0x36F) || (0x483 ≤ n && n ≤ 0x489) ||
    (0x591 ≤ n && n ≤ 0x5BD) || n == 0x5BF || n == 0x5C1 || n == 0x5C2 ||
    n == 0x5C4 || n == 0x5C5 || n == 0x5C7 ||
    (0x610 ≤ n && n ≤ 0x61A) || (0x64B ≤ n && n ≤ 0x65F) || n == 0x670 ||
    (0x6D6 ≤ n && n ≤ 0x6DC) || (0x6DF ≤ n && n ≤ 0x6E4) || n == 0x6E7 ||
    n == 0x6E8 || (0x6EA ≤ n && n ≤ 0x6ED) ||
    (0x20D0 ≤ n && n ≤ 0x20F0) || (0xFE20 ≤ n && n ≤ 0xFE2F)

/-- Model of `unicodedata.normalize('NFKD', ·)` at a single character, on the
fragment relevant to the program: the composed Arabic hamza/madda letters
(آ U+0622, أ U+0623, ؤ U+0624, إ U+0625, ئ U+0626) decompose to a base letter
followed by a combining mark; characters outside the modelled fragment are
decomposition-stable. -/
def nfkd (c : Char) : List Char :=
  if c = 'آ' then ['ا', 'ٓ']
  else if c = 'أ' then ['ا', 'ٔ']
  else if c = 'ؤ' then ['و', 'ٔ']
  else if c = 'إ' then ['ا', 'ٕ']
  else if c = 'ئ' then ['ي', 'ٔ']
  else [c]

/-- Model of `str.lower` at a single character (the ASCII fragment; Arabic
letters are caseless, so this matches CPython on the program's alphabet). -/
def toLowerPy (c : Char) : Char :=
  if 65 ≤ c.toNat ∧ c.toNat ≤ 90 then Char.ofNat (c.toNat + 32) else c

/-- Model of `str.upper` at a single character (the ASCII fragment). -/
def toUpperPy (c : Char) : Char :=
  if 97 ≤ c.toNat ∧ c.toNat ≤ 122 then Char.ofNat (c.toNat - 32) else c

/-- CPython's `s.replace(a, b)` for single characters `a`, `b`:
character-wise substitution. -/
def replaceChar (a b : Char) (l : List Char) : List Char :=
  l.map (fun c => if c = a then b else c)

/-- The first step of `normalize_arabic_text`: NFKD-decompose, then drop every
combining character (`''.join(c for c in unicodedata.normalize('NFKD', text)
if not unicodedata.combining(c))`). -/
def stripDiacritics (l : List Char) : List Char :=
  (l.flatMap nfkd).filter (fun c => !isCombining c)

/-- One-pass core of `' '.join(text.split())`.  `emitted` records whether a
word character has already been produced, `pending` whether whitespace has
been seen since the last produced character; a single ASCII space is emitted
between adjacent words. -/
def collapseAux (emitted pending : Bool) : List Char → List Char
  | [] => []
  | c :: cs =>
    if isSpacePy c then collapseAux emitted true cs
    else if emitted && pending then ' ' :: c :: collapseAux true false cs
    else c :: collapseAux true false cs

/-- Model of `' '.join(text.split())`: drops leading and trailing whitespace
and collapses every internal whitespace run to one space. -/
def collapseSpaces (l : List Char) : List Char :=
  collapseAux false false l

/-- The character-list pipeline of `ArabicContentModerator.normalize_arabic_text`:
strip diacritics, then `replace('ى','ي')`, `replace('ة','ه')`, `replace('أ','ا')`,
`replace('إ','ا')`, then `' '.join(text.split()).lower()`. -/
def normalizeL (l : List Char) : List Char :=
  List.map toLowerPy (collapseSpaces
    (replaceChar 'إ' 'ا'
      (replaceChar 'أ' 'ا'
        (replaceChar 'ة' 'ه'
          (replaceChar 'ى' 'ي' (stripDiacritics l))))))

/-- `ArabicContentModerator.normalize_arabic_text`, as a `String` function. -/
def normalize_arabic_text (s : String) : String :=
  String.mk (normalizeL s.data)

/-- `str.lower` on a whole string (ASCII fragment, see `toLowerPy`). -/
def pyLower (s : String) : String :=
  String.mk (s.data.map toLowerPy)

/-- `str.upper` on a whole string (ASCII fragment, see `toUpperPy`). -/
def pyUpper (s : String) : String :=
  String.mk (s.data.map toUpperPy)

/-- `s.replace(a, b)` for single characters, as a `String` function. -/
def pyReplace (a b : Char) (s : String) : String :=
  String.mk (replaceChar a b s.data)

/-- `s.replace(a, '')` for a single character `a`: removes every occurrence. -/
def pyRemove (a : Char) (s : String) : String :=
  String.mk (s.data.filter (fun c => c != a))

/-- Does `p` start the list `s`?  (Bool-valued, used to define `isSubstr`.) -/
def startsWith : List Char → List Char → Bool
  | [], _ => true
  | _ :: _, [] => false
  | a :: as, b :: bs => a == b && startsWith as bs

/-- CPython's substring test `p in s` on character lists: `p` occurs as a
contiguous run inside `s`. -/
def isSubstr (p : List Char) : List Char → Bool
  | [] => p.isEmpty
  | s@(_ :: rest) => startsWith p s || isSubstr p rest

/-- The seed bad-word list of `ArabicContentModerator._compile_bad_words`,
in source order (Arabic literals written as code-point escapes). -/
def bad_words_seed : List String :=
  [ "حمار",                -- حمار
    "كلب",                      -- كلب
    "عاهر",                -- عاهر
    "زنية",                -- زنية
    "كواد",                -- كواد
    "منيوج",          -- منيوج
    "خوات كحبة",  -- خوات كحبة
    "كس",                            -- كس
    "مأجور",          -- مأجور
    "عميل",                -- عميل
    "طيزك",                -- طيزك
    "طيز",                      -- طيز
    "عاهرة",          -- عاهرة
    "زنا",                      -- زنا
    "كحبه",                -- كحبه
    "منيوج",          -- منيوج (repeated in source)
    "تلوزه",          -- تلوزه
    "تلوزة",          -- تلوزة
    "صرمك",                -- صرمك
    "صرم",                      -- صرم
    "عرص",                      -- عرص
    "قحبة",                -- قحبة
    "منييجه",    -- منييجه
    "شرموطة",    -- شرموطة
    "عير",                      -- عير
    "ايجت",                -- ايجت
    "منيجة",          -- منيجة
    "كسم",                      -- كسم
    "كلخ",                      -- كلخ
    "kos", "kuss", "khara", "khara2",
    "manyak", "manak", "sharmota",
    "ح م ا ر",             -- ح م ا ر
    "ك ل ب",                    -- ك ل ب
    "ع ا ه ر" ]            -- ع ا ه ر

/-- The variants `_compile_bad_words` appends per seed word, in source order:
the word, the word with spaces removed, and the three letter substitutions
`replace('ا','أ')`, `replace('ا','إ')`, `replace('ه','ة')`. -/
def extendWord (w : String) : List String :=
  [w, pyRemove ' ' w,
    pyReplace 'ا' 'أ' w,
    pyReplace 'ا' 'إ' w,
    pyReplace 'ه' 'ة' w]

/-- The expanded lexicon of `_compile_bad_words`, kept as a list.  The source
returns `set(extended_words)`; the `set` only collapses duplicates, which
changes neither membership nor any existential scan over the entries, so the
list is a faithful model of those observations. -/
def bad_words : List String :=
  bad_words_seed.flatMap extendWord

/-- Modelled from the claim's words (refinement claim C10): the sub-lexicon of
only the seed words and their space-removed variants, without the
letter-substituted variants. -/
def bad_words_core : List String :=
  bad_words_seed.flatMap (fun w => [w, pyRemove ' ' w])

/-- The static-lexicon scan of `contains_bad_words` over an arbitrary entry
list: some entry, lowercased, occurs as a substring of the normalized text
(`for bad_word in self.bad_words: if bad_word.lower() in normalized_text`). -/
def lexicon_match_over (lex : List String) (text : String) : Bool :=
  lex.any (fun w => isSubstr (pyLower w).data (normalize_arabic_text text).data)

/-- The static-lexicon phase of `ArabicContentModerator.contains_bad_words`. -/
def lexicon_match (text : String) : Bool :=
  lexicon_match_over bad_words text

/-- Token searched for in the generative-model response
(`'TRUE' in response.text.upper()`). -/
def true_token : String := "TRUE"

/-- Parse the generative-model response for an affirmative token:
`'TRUE' in response.text.upper()`. -/
def gemini_verdict (resp : String) : Bool :=
  isSubstr true_token.data (pyUpper resp).data

/-- Result of one run of `contains_bad_words`: the boolean verdict, whether
the remote generative-model API was invoked, and the lines printed to the
error log. -/
structure ModResult where
  verdict : Bool
  remote_called : Bool
  log : List String
deriving DecidableEq, Repr

/-- `ArabicContentModerator.contains_bad_words`.  The remote classifier is an
oracle `remote : String → Except String String` mapping the message text to
the response text (`Except.ok`) or to a raised exception (`Except.error`); the
prompt construction, the API transport and the response-attribute access are
folded into the oracle.  On a static-lexicon hit the function returns `True`
before the remote call; otherwise it parses the remote response, and on any
exception it logs the error and returns `False` (fail-open). -/
def contains_bad_words (remote : String → Except String String)
    (text : String) : ModResult :=
  if lexicon_match text then ⟨true, false, []⟩
  else
    match remote text with
    | Except.ok resp => ⟨gemini_verdict resp, true, []⟩
    | Except.error e => ⟨false, true, ["Gemini moderation check failed: " ++ e]⟩

/-- A platform call made by the message handler: delete the offending message,
or send a message to a chat. -/
inductive TgAction where
  | deleteMessage : TgAction
  | sendMessage (chat_id : Int) (text : String) : TgAction
deriving DecidableEq, Repr

/-- The warning posted after a deletion
(`f"⚠️ تم حذف رسالة من {mention} بسبب محتوى غير لائق."`). -/
def warning_message (mention : String) : String :=
  "⚠️ تم حذف رسالة من "
    ++ mention
    ++ " بسبب محتوى غير لائق."

/-- `ContentModerationBot.moderate_message`, as the list of platform calls it
performs.  `message_text = none` models an update without a text message; the
source also returns early on an empty text (`not update.message.text` is true
for `""`).  On a flagged message it calls delete; if the delete raises
(`delete_ok = false`) the exception is caught and the warning send is skipped,
otherwise the warning is sent.  On a clean verdict no platform call is made. -/
def moderate_message (remote : String → Except String String)
    (message_text : Option String) (chat_id : Int) (mention : String)
    (delete_ok : Bool) : List TgAction :=
  match message_text with
  | none => []
  | some t =>
    if t = "" then []
    else if (contains_bad_words remote t).verdict then
      if delete_ok then
        [TgAction.deleteMessage, TgAction.sendMessage chat_id (warning_message mention)]
      else [TgAction.deleteMessage]
    else []

/-- The hardcoded platform token in `get_api_keys`. -/
def TELEGRAM_BOT_TOKEN : String := "xxxxxxxxxxxxxxxz"

/-- The hardcoded model API key in `get_api_keys`. -/
def GOOGLE_GEMINI_API_KEY : String := "AIzaSyAseXen26vnBIoaxxxxxxxxxxxxxx"

/-- The placeholder value `get_api_keys` tests the platform token against. -/
def telegram_token_placeholder : String := "YOUR_TELEGRAM_BOT_TOKEN"

/-- The placeholder value `get_api_keys` tests the model API key against. -/
def gemini_key_placeholder : String := "YOUR_GOOGLE_GEMINI_API_KEY"

/-- The validation logic of `get_api_keys`, with the two credential strings
abstracted as parameters: `none` models `sys.exit(1)` after the error message,
`some` the normal return of the pair. -/
def get_api_keys_check (token key : String) : Option (String × String) :=
  if token = telegram_token_placeholder ∨ key = gemini_key_placeholder then none
  else some (token, key)

/-- `get_api_keys` itself: the validation applied to the hardcoded values. -/
def get_api_keys : Option (String × String) :=
  get_api_keys_check TELEGRAM_BOT_TOKEN GOOGLE_GEMINI_API_KEY

/-- State for the well-spaced-string scanner `wsOk`: at the start of the
string, after a word character, or just after a separating space. -/
inductive WsState where
  | start : WsState
  | word : WsState
  | gap : WsState
deriving DecidableEq, Repr

/-- A string is well-spaced (from a given scanner state) when it has no
leading, trailing or consecutive whitespace and every whitespace character in
it is the ASCII space: exactly the shape `' '.join(text.split())` produces. -/
def wsOk : WsState → List Char → Bool
  | WsState.start, [] => true
  | WsState.word, [] => true
  | WsState.gap, [] => false
  | WsState.start, c :: cs => !isSpacePy c && wsOk WsState.word cs
  | WsState.word, c :: cs =>
    if isSpacePy c then c == ' ' && wsOk WsState.gap cs else wsOk WsState.word cs
  | WsState.gap, c :: cs => !isSpacePy c && wsOk WsState.word cs

/-- A character is in normal form for the pipeline: decomposition-stable,
non-combining, none of the four substituted letters (ى ة أ إ), and fixed by
lowercasing (hence not an ASCII uppercase letter). -/
def normalChar (c : Char) : Prop :=
  nfkd c = [c] ∧ isCombining c = false ∧
    c ≠ 'ى' ∧ c ≠ 'ة' ∧ c ≠ 'أ' ∧ c ≠ 'إ' ∧
    toLowerPy c = c ∧ ¬(65 ≤ c.toNat ∧ c.toNat ≤ 90)

instance : DecidablePred normalChar := fun c => by
  unfold normalChar
  infer_instance

/-! ### Basic lemmas about the substring scan -/

theorem startsWith_iff (p s : List Char) :
    startsWith p s = true ↔ ∃ v, s = p ++ v := by
  induction p generalizing s with
  | nil => simp [startsWith]
  | cons a as ih =>
    cases s with
    | nil =>
      simp [startsWith]
    | cons b bs =>
      simp only [startsWith, Bool.and_eq_true, beq_iff_eq, ih, List.cons_append,
        List.cons.injEq]
      constructor
      · rintro ⟨rfl, v, rfl⟩
        exact ⟨v, rfl, rfl⟩
      · rintro ⟨v, rfl, rfl⟩
        exact ⟨rfl, v, rfl⟩

theorem isSubstr_iff (p s : List Char) :
    isSubstr p s = true ↔ ∃ u v, s = u ++ p ++ v := by
  induction s with
  | nil =>
    simp only [isSubstr, List.isEmpty_iff]
    constructor
    · rintro rfl
      exact ⟨[], [], rfl⟩
    · rintro ⟨u, v, h⟩
      rcases List.append_eq_nil.mp (List.append_eq_nil.mp h.symm).1 with ⟨-, h2⟩
      exact h2
  | cons b bs ih =>
    show (startsWith p (b :: bs) || isSubstr p bs) = true ↔ _
    simp only [Bool.or_eq_true, startsWith_iff, ih]
    constructor
    · rintro (⟨v, hv⟩ | ⟨u, v, hv⟩)
      · exact ⟨[], v, by simpa using hv⟩
      · exact ⟨b :: u, v, by simp [hv]⟩
    · rintro ⟨u, v, hv⟩
      cases u with
      | nil => exact Or.inl ⟨v, by simpa using hv⟩
      | cons x u =>
        rcases List.cons.injEq .. ▸ hv with ⟨rfl, h2⟩
        exact Or.inr ⟨u, v, h2⟩

theorem isSubstr_mem {p s : List Char} {c : Char}
    (h : isSubstr p s = true) (hc : c ∈ p) : c ∈ s := by
  rcases (isSubstr_iff p s).mp h with ⟨u, v, rfl⟩
  simp [hc]

/-! ### Character provenance through the normalization pipeline -/

theorem mem_replaceChar {a b c : Char} {l : List Char}
    (h : c ∈ replaceChar a b l) : c = b ∨ (c ∈ l ∧ c ≠ a) := by
  rcases List.mem_map.mp h with ⟨d, hd, hfd⟩
  by_cases hda : d = a
  · rw [if_pos hda] at hfd
    exact Or.inl hfd.symm
  · rw [if_neg hda] at hfd
    exact Or.inr ⟨hfd ▸ hd, hfd ▸ hda⟩

theorem replaceChar_eq_or_mem (a b : Char) (l : List Char) :
    replaceChar a b l = l ∨ b ∈ replaceChar a b l := by
  induction l with
  | nil => exact Or.inl rfl
  | cons c cs ih =>
    by_cases hc : c = a
    · right
      simp [replaceChar, hc]
    · rcases ih with h | h
      · left
        simp [replaceChar, hc] at h ⊢
        exact h
      · right
        simp [replaceChar, hc]
        right
        simpa [replaceChar] using h

theorem mem_stripDiacritics {c : Char} {l : List Char}
    (h : c ∈ stripDiacritics l) : nfkd c = [c] ∧ isCombining c = false := by
  rw [stripDiacritics, List.mem_filter] at h
  obtain ⟨hmem, hcomb⟩ := h
  rw [Bool.not_eq_true'] at hcomb
  refine ⟨?_, hcomb⟩
  rcases List.mem_flatMap.mp hmem with ⟨d, -, hcd⟩
  unfold nfkd at hcd ⊢
  split_ifs at hcd with h1 h2 h3 h4 h5
  all_goals simp only [List.mem_cons, List.not_mem_nil, or_false] at hcd
  · rcases hcd with rfl | rfl
    · decide
    · exact absurd hcomb (by decide)
  · rcases hcd with rfl | rfl
    · decide
    · exact absurd hcomb (by decide)
  · rcases hcd with rfl | rfl
    · decide
    · exact absurd hcomb (by decide)
  · rcases hcd with rfl | rfl
    · decide
    · exact absurd hcomb (by decide)
  · rcases hcd with rfl | rfl
    · decide
    · exact absurd hcomb (by decide)
  · subst hcd
    rw [if_neg h1, if_neg h2, if_neg h3, if_neg h4, if_neg h5]

theorem mem_collapseAux {c : Char} :
    ∀ (l : List Char) (e p : Bool), c ∈ collapseAux e p l → c = ' ' ∨ c ∈ l := by
  intro l
  induction l with
  | nil => intro e p h; simp [collapseAux] at h
  | cons d ds ih =>
    intro e p h
    simp only [collapseAux] at h
    by_cases hsp : isSpacePy d = true
    · rw [if_pos hsp] at h
      rcases ih e true h with h' | h'
      · exact Or.inl h'
      · exact Or.inr (List.mem_cons_of_mem _ h')
    · rw [if_neg hsp] at h
      by_cases hep : (e && p) = true
      · rw [if_pos hep] at h
        rcases List.mem_cons.mp h with rfl | h'
        · exact Or.inl rfl
        · rcases List.mem_cons.mp h' with rfl | h''
          · exact Or.inr (List.mem_cons_self _ _)
          · rcases ih true false h'' with h3 | h3
            · exact Or.inl h3
            · exact Or.inr (List.mem_cons_of_mem _ h3)
      · rw [if_neg hep] at h
        rcases List.mem_cons.mp h with rfl | h'
        · exact Or.inr (List.mem_cons_self _ _)
        · rcases ih true false h' with h3 | h3
          · exact Or.inl h3
          · exact Or.inr (List.mem_cons_of_mem _ h3)

/-! ### The ASCII-lowercase branch of `toLowerPy` -/

theorem lower_ascii_normal (m : Nat) (h1 : 65 ≤ m) (h2 : m ≤ 90) :
    normalChar (Char.ofNat (m + 32)) ∧ (Char.ofNat (m + 32)).toNat = m + 32 ∧
      isSpacePy (Char.ofNat (m + 32)) = false := by
  interval_cases m <;> exact ⟨by decide, by decide, by decide⟩

theorem toLowerPy_normalChar {c : Char} (h1 : nfkd c = [c])
    (h2 : isCombining c = false) (h3 : c ≠ 'ى') (h4 : c ≠ 'ة')
    (h5 : c ≠ 'أ') (h6 : c ≠ 'إ') : normalChar (toLowerPy c) := by
  unfold toLowerPy
  split_ifs with h
  · exact (lower_ascii_normal c.toNat h.1 h.2).1
  · unfold normalChar
    exact ⟨h1, h2, h3, h4, h5, h6, by unfold toLowerPy; rw [if_neg h], h⟩

theorem toLowerPy_fix_of_space {c : Char} (h : isSpacePy c = true) :
    toLowerPy c = c := by
  unfold toLowerPy
  rw [if_neg]
  rintro ⟨hl, hr⟩
  simp only [isSpacePy, Bool.or_eq_true, Bool.and_eq_true, decide_eq_true_eq,
    beq_iff_eq] at h
  omega

theorem isSpacePy_lower_range {c : Char} (hl : 65 ≤ c.toNat)
    (hr : c.toNat ≤ 122) : isSpacePy c = false := by
  rw [Bool.eq_false_iff]
  intro h
  simp only [isSpacePy, Bool.or_eq_true, Bool.and_eq_true, decide_eq_true_eq,
    beq_iff_eq] at h
  omega

theorem isSpacePy_toLowerPy (c : Char) :
    isSpacePy (toLowerPy c) = isSpacePy c := by
  unfold toLowerPy
  split_ifs with h
  · rw [(lower_ascii_normal c.toNat h.1 h.2).2.2,
      isSpacePy_lower_range h.1 (by omega)]
  · rfl

/-! ### Shape of the whitespace-collapsed output -/

theorem wsOk_collapseAux :
    ∀ (l : List Char) (p : Bool),
      wsOk WsState.start (collapseAux false p l) = true ∧
        wsOk WsState.word (collapseAux true p l) = true := by
  intro l
  induction l with
  | nil => intro p; exact ⟨rfl, rfl⟩
  | cons c cs ih =>
    intro p
    by_cases hsp : isSpacePy c = true
    · simpa [collapseAux, hsp] using ih true
    · constructor
      · simp [collapseAux, hsp, wsOk, (ih false).2]
      · cases p with
        | false => simp [collapseAux, hsp, wsOk, (ih false).2]
        | true => simp [collapseAux, hsp, wsOk, (ih false).2]

theorem wsOk_fix (l : List Char) :
    (wsOk WsState.start l = true → collapseAux false false l = l) ∧
      (wsOk WsState.word l = true → collapseAux true false l = l) ∧
      (wsOk WsState.gap l = true → collapseAux true true l = ' ' :: l) := by
  induction l with
  | nil =>
    refine ⟨fun _ => rfl, fun _ => rfl, fun h => ?_⟩
    simp [wsOk] at h
  | cons c cs ih =>
    obtain ⟨ih1, ih2, ih3⟩ := ih
    refine ⟨?_, ?_, ?_⟩
    · intro h
      simp only [wsOk, Bool.and_eq_true, Bool.not_eq_true'] at h
      obtain ⟨hsp, hw⟩ := h
      simp [collapseAux, hsp, ih2 hw]
    · intro h
      simp only [wsOk] at h
      by_cases hsp : isSpacePy c = true
      · rw [if_pos hsp] at h
        simp only [Bool.and_eq_true, beq_iff_eq] at h
        obtain ⟨rfl, hg⟩ := h
        simp [collapseAux, hsp, ih3 hg]
      · rw [if_neg hsp] at h
        simp [collapseAux, hsp, ih2 h]
    · intro h
      simp only [wsOk, Bool.and_eq_true, Bool.not_eq_true'] at h
      obtain ⟨hsp, hw⟩ := h
      simp [collapseAux, hsp, ih2 hw]

theorem wsOk_map (f : Char → Char) (hfix : ∀ c, isSpacePy c = true → f c = c)
    (hsp : ∀ c, isSpacePy (f c) = isSpacePy c) :
    ∀ (s : WsState) (l : List Char), wsOk s (l.map f) = wsOk s l := by
  intro s l
  induction l generalizing s with
  | nil => rfl
  | cons c cs ih =>
    cases s with
    | start => simp only [List.map_cons, wsOk, hsp c, ih]
    | word =>
      by_cases h : isSpacePy c = true
      · simp [List.map_cons, wsOk, hsp c, h, hfix c h, ih]
      · simp [List.map_cons, wsOk, hsp c, h, ih]
    | gap => simp only [List.map_cons, wsOk, hsp c, ih]

theorem flatMap_fix {α : Type} (f : α → List α) :
    ∀ l : List α, (∀ c ∈ l, f c = [c]) → l.flatMap f = l := by
  intro l h
  induction l with
  | nil => rfl
  | cons c cs ih =>
    rw [List.flatMap_cons, h c (List.mem_cons_self _ _),
      ih (fun d hd => h d (List.mem_cons_of_mem _ hd))]
    rfl

theorem map_fix {α : Type} (f : α → α) :
    ∀ l : List α, (∀ c ∈ l, f c = c) → l.map f = l := by
  intro l h
  induction l with
  | nil => rfl
  | cons c cs ih =>
    rw [List.map_cons, h c (List.mem_cons_self _ _),
      ih (fun d hd => h d (List.mem_cons_of_mem _ hd))]

/-! ### Every character of a normalized text is in normal form -/

theorem normalizeL_chars (l : List Char) :
    ∀ c ∈ normalizeL l, normalChar c := by
  intro c hc
  unfold normalizeL at hc
  rcases List.mem_map.mp hc with ⟨d, hd, rfl⟩
  rcases mem_collapseAux _ _ _ hd with rfl | hd5
  · exact toLowerPy_normalChar (by decide) (by decide) (by decide) (by decide)
      (by decide) (by decide)
  · rcases mem_replaceChar hd5 with rfl | ⟨hd4, hne6⟩
    · exact toLowerPy_normalChar (by decide) (by decide) (by decide) (by decide)
        (by decide) (by decide)
    · rcases mem_replaceChar hd4 with rfl | ⟨hd3, hne5⟩
      · exact toLowerPy_normalChar (by decide) (by decide) (by decide) (by decide)
          (by decide) (by decide)
      · rcases mem_replaceChar hd3 with rfl | ⟨hd2, hne4⟩
        · exact toLowerPy_normalChar (by decide) (by decide) (by decide) (by decide)
            (by decide) (by decide)
        · rcases mem_replaceChar hd2 with rfl | ⟨hd1, hne3⟩
          · exact toLowerPy_normalChar (by decide) (by decide) (by decide) (by decide)
              (by decide) (by decide)
          · obtain ⟨h1, h2⟩ := mem_stripDiacritics hd1
            exact toLowerPy_normalChar h1 h2 hne3 hne4 hne5 hne6

theorem normalizeL_wsOk (l : List Char) :
    wsOk WsState.start (normalizeL l) = true := by
  unfold normalizeL
  rw [wsOk_map toLowerPy (fun c h => toLowerPy_fix_of_space h) isSpacePy_toLowerPy]
  exact (wsOk_collapseAux _ false).1

/-- A string all of whose characters are in normal form and which is
well-spaced is a fixed point of the normalization pipeline. -/
theorem normalizeL_fix (l : List Char) (hch : ∀ c ∈ l, normalChar c)
    (hws : wsOk WsState.start l = true) : normalizeL l = l := by
  have h1 : stripDiacritics l = l := by
    unfold stripDiacritics
    rw [flatMap_fix nfkd l (fun c hc => (hch c hc).1)]
    exact List.filter_eq_self.mpr (fun c hc => by
      have h := (hch c hc).2.1
      simp [h])
  have h2 : replaceChar 'ى' 'ي' l = l :=
    map_fix _ l (fun c hc => if_neg (hch c hc).2.2.1)
  have h3 : replaceChar 'ة' 'ه' l = l :=
    map_fix _ l (fun c hc => if_neg (hch c hc).2.2.2.1)
  have h4 : replaceChar 'أ' 'ا' l = l :=
    map_fix _ l (fun c hc => if_neg (hch c hc).2.2.2.2.1)
  have h5 : replaceChar 'إ' 'ا' l = l :=
    map_fix _ l (fun c hc => if_neg (hch c hc).2.2.2.2.2.1)
  have h6 : collapseSpaces l = l := (wsOk_fix l).1 hws
  have h7 : l.map toLowerPy = l :=
    map_fix _ l (fun c hc => (hch c hc).2.2.2.2.2.2.1)
  unfold normalizeL
  rw [h1, h2, h3, h4, h5, h6, h7]

theorem normalizeL_idem (l : List Char) :
    normalizeL (normalizeL l) = normalizeL l :=
  normalizeL_fix _ (normalizeL_chars l) (normalizeL_wsOk l)

/-! ### No leading, trailing or consecutive whitespace in a well-spaced string -/

theorem wsOk_getLast :
    ∀ (l : List Char) (s : WsState), wsOk s l = true →
      ∀ c, l.getLast? = some c → isSpacePy c = false := by
  intro l
  induction l with
  | nil => intro s _ c hc; simp at hc
  | cons d ds ih =>
    intro s hs c hc
    cases ds with
    | nil =>
      have hdc : d = c := by simpa using hc
      subst hdc
      cases s with
      | start =>
        simp only [wsOk, Bool.and_eq_true, Bool.not_eq_true'] at hs
        exact hs.1
      | gap =>
        simp only [wsOk, Bool.and_eq_true, Bool.not_eq_true'] at hs
        exact hs.1
      | word =>
        by_cases h : isSpacePy d = true
        · simp only [wsOk] at hs
          rw [if_pos h] at hs
          simp [wsOk] at hs
        · exact Bool.eq_false_iff.mpr h
    | cons e es =>
      rw [List.getLast?_cons_cons] at hc
      cases s with
      | start =>
        simp only [wsOk, Bool.and_eq_true] at hs
        exact ih WsState.word hs.2 c hc
      | gap =>
        simp only [wsOk, Bool.and_eq_true] at hs
        exact ih WsState.word hs.2 c hc
      | word =>
        by_cases h : isSpacePy d = true
        · simp only [wsOk] at hs
          rw [if_pos h] at hs
          simp only [Bool.and_eq_true] at hs
          refine ih WsState.start ?_ c hc
          simp only [wsOk, Bool.and_eq_true]
          exact hs.2
        · simp only [wsOk] at hs
          rw [if_neg h] at hs
          exact ih WsState.word hs c hc

theorem wsOk_pair :
    ∀ (u : List Char) (s : WsState) (c d : Char) (v : List Char),
      wsOk s (u ++ c :: d :: v) = true → isSpacePy c = true →
        isSpacePy d = false := by
  intro u
  induction u with
  | nil =>
    intro s c d v hs hc
    cases s with
    | start =>
      simp only [List.nil_append, wsOk, Bool.and_eq_true, Bool.not_eq_true'] at hs
      rw [hs.1] at hc
      cases hc
    | gap =>
      simp only [List.nil_append, wsOk, Bool.and_eq_true, Bool.not_eq_true'] at hs
      rw [hs.1] at hc
      cases hc
    | word =>
      simp only [List.nil_append, wsOk] at hs
      rw [if_pos hc] at hs
      simp only [Bool.and_eq_true, beq_iff_eq] at hs
      have h2 := hs.2
      simp only [wsOk, Bool.and_eq_true, Bool.not_eq_true'] at h2
      exact h2.1
  | cons x u ih =>
    intro s c d v hs hc
    rw [List.cons_append] at hs
    cases s with
    | start =>
      simp only [wsOk, Bool.and_eq_true] at hs
      exact ih WsState.word c d v hs.2 hc
    | gap =>
      simp only [wsOk, Bool.and_eq_true] at hs
      exact ih WsState.word c d v hs.2 hc
    | word =>
      by_cases h : isSpacePy x = true
      · simp only [wsOk] at hs
        rw [if_pos h] at hs
        simp only [Bool.and_eq_true] at hs
        exact ih WsState.gap c d v hs.2 hc
      · simp only [wsOk] at hs
        rw [if_neg h] at hs
        exact ih WsState.word c d v hs hc

/-- A lowercased letter-substituted lexicon entry that matches inside a
normalized text must be identical to its seed word: otherwise it contains the
substituted letter `b`, which never occurs in a normalized text. -/
theorem subst_variant_dead (text v : String) (a b : Char)
    (hlb : toLowerPy b = b)
    (hb : ∀ c ∈ (normalize_arabic_text text).data, c ≠ b)
    (hsub : isSubstr (pyLower (pyReplace a b v)).data
      (normalize_arabic_text text).data = true) :
    pyReplace a b v = v := by
  rcases replaceChar_eq_or_mem a b v.data with he | hbm
  · unfold pyReplace
    rw [he]
  · exfalso
    have hbl : b ∈ (pyLower (pyReplace a b v)).data :=
      List.mem_map.mpr ⟨b, hbm, hlb⟩
    exact hb b (isSubstr_mem hsub hbl) rfl

/-! ### The claims -/

/-- C1: the lexicon matcher returns true iff some entry of the lexicon,
lowercased, occurs as a contiguous substring of the normalized input text;
in particular, when no entry matches, the static-lexicon phase of
`contains_bad_words` finds no match. -/
theorem lexicon_match_iff_entry_substring (text : String) :
    (lexicon_match text = true ↔
      ∃ w ∈ bad_words, ∃ u v, (normalize_arabic_text text).data =
        u ++ (pyLower w).data ++ v) ∧
    ((∀ w ∈ bad_words,
        isSubstr (pyLower w).data (normalize_arabic_text text).data = false) →
      lexicon_match text = false) := by
  constructor
  · unfold lexicon_match lexicon_match_over
    simp only [List.any_eq_true]
    constructor
    · rintro ⟨w, hw, hsub⟩
      exact ⟨w, hw, (isSubstr_iff _ _).mp hsub⟩
    · rintro ⟨w, hw, hdecomp⟩
      exact ⟨w, hw, (isSubstr_iff _ _).mpr hdecomp⟩
  · intro hall
    unfold lexicon_match lexicon_match_over
    rw [Bool.eq_false_iff]
    intro hx
    rcases List.any_eq_true.mp hx with ⟨w, hw, hsub⟩
    rw [hall w hw] at hsub
    exact Bool.false_ne_true hsub

set_option maxRecDepth 10000 in
/-- Witness for C1 at a concrete clean text. -/
theorem lexicon_match_iff_entry_substring_witness :
    lexicon_match "مرحبا" = false :=
  (lexicon_match_iff_entry_substring _).2 (by decide)

/-- C2: whenever the remote classifier call raises (and the call is actually
made, i.e. the static phase found nothing), `contains_bad_words` returns
`False` and logs the error; the exception is swallowed, not propagated. -/
theorem contains_bad_words_fail_open (text : String)
    (remote : String → Except String String) (e : String)
    (herr : remote text = Except.error e)
    (hcall : (contains_bad_words remote text).remote_called = true) :
    (contains_bad_words remote text).verdict = false ∧
      (contains_bad_words remote text).log =
        ["Gemini moderation check failed: " ++ e] := by
  by_cases h : lexicon_match text = true
  · exfalso
    unfold contains_bad_words at hcall
    rw [if_pos h] at hcall
    exact Bool.false_ne_true hcall
  · unfold contains_bad_words
    rw [if_neg h, herr]
    exact ⟨rfl, rfl⟩

set_option maxRecDepth 10000 in
/-- Witness for C2: a failing oracle on a clean text. -/
theorem contains_bad_words_fail_open_witness :
    (contains_bad_words (fun _ => Except.error "boom") "مرحبا").verdict
        = false ∧
      (contains_bad_words (fun _ => Except.error "boom") "مرحبا").log =
        ["Gemini moderation check failed: boom"] :=
  contains_bad_words_fail_open _ _ "boom" rfl (by decide)

/-- C3: the normalizer is idempotent. -/
theorem normalize_arabic_text_idem (s : String) :
    normalize_arabic_text (normalize_arabic_text s) = normalize_arabic_text s :=
  congrArg String.mk (normalizeL_idem s.data)

/-- C6: the remote classifier is invoked exactly when the static lexicon
matcher finds no match, and on a static hit `contains_bad_words` returns
`True` without calling the generative-model API. -/
theorem remote_called_iff_lexicon_clean (text : String)
    (remote : String → Except String String) :
    ((contains_bad_words remote text).remote_called = true ↔
      lexicon_match text = false) ∧
    (lexicon_match text = true →
      contains_bad_words remote text = ⟨true, false, []⟩) := by
  constructor
  · by_cases h : lexicon_match text = true
    · unfold contains_bad_words
      rw [if_pos h]
      simp [h]
    · have hf : lexicon_match text = false := Bool.eq_false_iff.mpr h
      unfold contains_bad_words
      rw [if_neg h]
      cases hr : remote text with
      | ok r => simp [hf]
      | error e => simp [hf]
  · intro h
    unfold contains_bad_words
    rw [if_pos h]

/-- Witness for C6: a text containing the known bad word كلب is flagged by
the static phase alone, with the remote oracle never invoked. -/
theorem remote_called_iff_lexicon_clean_witness :
    contains_bad_words (fun _ => Except.error "down") "انت كلب" =
      ⟨true, false, []⟩ :=
  (remote_called_iff_lexicon_clean _ _).2 (by decide)

/-- C7: when `contains_bad_words` reports clean, `moderate_message` performs
no delete and no send call — the chat state is left unchanged. -/
theorem moderate_message_clean_no_actions
    (remote : String → Except String String) (t : String) (chat_id : Int)
    (mention : String) (delete_ok : Bool)
    (h : (contains_bad_words remote t).verdict = false) :
    moderate_message remote (some t) chat_id mention delete_ok = [] := by
  show (if t = "" then []
    else if (contains_bad_words remote t).verdict = true then
      if delete_ok then
        [TgAction.deleteMessage, TgAction.sendMessage chat_id (warning_message mention)]
      else [TgAction.deleteMessage]
    else []) = []
  split_ifs with h1 h2 h3
  · rfl
  · exact absurd h2 (by simp [h])
  · exact absurd h2 (by simp [h])
  · rfl

set_option maxRecDepth 10000 in
/-- Witness for C7 at a concrete clean text and clean remote verdict. -/
theorem moderate_message_clean_no_actions_witness :
    moderate_message (fun _ => Except.ok "FALSE") (some "مرحبا")
      0 "user" true = [] :=
  moderate_message_clean_no_actions _ _ 0 "user" true (by decide)

/-- C8: for every input, the normalized output contains no combining
diacritical mark, no occurrence of ى, ة, أ or إ, no ASCII uppercase letter,
and no leading, trailing or consecutive whitespace. -/
theorem normalize_arabic_text_canonical (s : String) :
    (∀ c ∈ (normalize_arabic_text s).data,
        isCombining c = false ∧ c ≠ 'ى' ∧ c ≠ 'ة' ∧ c ≠ 'أ' ∧ c ≠ 'إ' ∧
          ¬(65 ≤ c.toNat ∧ c.toNat ≤ 90)) ∧
      (∀ c cs, (normalize_arabic_text s).data = c :: cs →
        isSpacePy c = false) ∧
      (∀ c, (normalize_arabic_text s).data.getLast? = some c →
        isSpacePy c = false) ∧
      (∀ u c d v, (normalize_arabic_text s).data = u ++ c :: d :: v →
        ¬(isSpacePy c = true ∧ isSpacePy d = true)) := by
  have hch : ∀ c ∈ (normalize_arabic_text s).data, normalChar c :=
    normalizeL_chars s.data
  have hws : wsOk WsState.start (normalize_arabic_text s).data = true :=
    normalizeL_wsOk s.data
  refine ⟨?_, ?_, ?_, ?_⟩
  · intro c hc
    obtain ⟨-, h2, h3, h4, h5, h6, -, h8⟩ := hch c hc
    exact ⟨h2, h3, h4, h5, h6, h8⟩
  · intro c cs heq
    rw [heq] at hws
    simp only [wsOk, Bool.and_eq_true, Bool.not_eq_true'] at hws
    exact hws.1
  · intro c hc
    exact wsOk_getLast _ _ hws c hc
  · rintro u c d v heq ⟨hc, hd⟩
    rw [heq] at hws
    rw [wsOk_pair u WsState.start c d v hws hc] at hd
    exact Bool.false_ne_true hd

/-- Witness for C8 at a concrete input with a diacritic, a hamza-carrying
alef and an uppercase Latin letter. -/
theorem normalize_arabic_text_canonical_witness :
    isCombining 'ا' = false ∧ 'ا' ≠ 'ى' ∧ 'ا' ≠ 'ة' ∧ 'ا' ≠ 'أ' ∧
      'ا' ≠ 'إ' ∧ ¬(65 ≤ 'ا'.toNat ∧ 'ا'.toNat ≤ 90) :=
  (normalize_arabic_text_canonical "  أَب  X ").1 'ا' (by decide)

/-- C5: for every seed word, the compiled lexicon contains the word itself,
its space-removed variant, and its three letter-substituted variants. -/
theorem compile_bad_words_has_variants (w : String)
    (hw : w ∈ bad_words_seed) :
    w ∈ bad_words ∧ pyRemove ' ' w ∈ bad_words ∧
      pyReplace 'ا' 'أ' w ∈ bad_words ∧ pyReplace 'ا' 'إ' w ∈ bad_words ∧
      pyReplace 'ه' 'ة' w ∈ bad_words := by
  refine ⟨?_, ?_, ?_, ?_, ?_⟩ <;>
    exact List.mem_flatMap.mpr ⟨w, hw, by simp [extendWord]⟩

/-- Witness for C5 at the first seed word. -/
theorem compile_bad_words_has_variants_witness :
    "حمار" ∈ bad_words :=
  (compile_bad_words_has_variants _ (by decide)).1

set_option maxRecDepth 10000 in
/-- C4 counterexample: the seed word زنية is an entry of the lexicon but is
not a normalized string (normalization maps its final ة to ه), so not every
lexicon entry is normalized. -/
theorem bad_words_entry_not_normalized :
    "زنية" ∈ bad_words ∧
      normalize_arabic_text "زنية" ≠ "زنية" := by
  constructor
  · exact List.mem_flatMap.mpr ⟨"زنية", by decide, by simp [extendWord]⟩
  · decide

set_option maxRecDepth 10000 in
set_option maxHeartbeats 4000000 in
/-- C4 amended: every lexicon entry containing none of أ, إ, ة is a
normalized string (the entries containing one of those letters — some seed
words and the letter-substituted variants — are exactly the non-normalized
ones); the lexicon itself is a value built once and never mutated. -/
theorem bad_words_entries_normalized (w : String) (hw : w ∈ bad_words)
    (h1 : 'أ' ∉ w.data) (h2 : 'إ' ∉ w.data) (h3 : 'ة' ∉ w.data) :
    normalize_arabic_text w = w := by
  have hall : ∀ x ∈ bad_words, 'أ' ∉ x.data → 'إ' ∉ x.data → 'ة' ∉ x.data →
      normalize_arabic_text x = x := by decide
  exact hall w hw h1 h2 h3

set_option maxRecDepth 10000 in
/-- Witness for the amended C4 at the first seed word. -/
theorem bad_words_entries_normalized_witness :
    normalize_arabic_text "حمار" = "حمار" :=
  bad_words_entries_normalized "حمار"
    (List.mem_flatMap.mpr ⟨"حمار", by decide, by simp [extendWord]⟩)
    (by decide) (by decide) (by decide)

/-- C10: the letter-substituted variants are dead entries — over every input
text the matcher's verdict over the full extended lexicon equals its verdict
over only the seed words and their space-removed variants, because a variant
that differs from its seed contains أ, إ or ة, which never occur in a
normalized text. -/
theorem lexicon_match_core_equiv (text : String) :
    lexicon_match text = lexicon_match_over bad_words_core text := by
  have hch : ∀ c ∈ (normalize_arabic_text text).data, normalChar c :=
    normalizeL_chars text.data
  have key : lexicon_match text = true ↔
      lexicon_match_over bad_words_core text = true := by
    unfold lexicon_match lexicon_match_over
    simp only [List.any_eq_true]
    constructor
    · rintro ⟨w, hw, hsub⟩
      rcases List.mem_flatMap.mp hw with ⟨v, hv, hwv⟩
      simp only [extendWord, List.mem_cons, List.not_mem_nil, or_false] at hwv
      have hbase : ∀ x : String, x = v ∨ x = pyRemove ' ' v →
          x ∈ bad_words_core := fun x hx =>
        List.mem_flatMap.mpr ⟨v, hv, by rcases hx with rfl | rfl <;> simp⟩
      rcases hwv with rfl | rfl | rfl | rfl | rfl
      · exact ⟨w, hbase w (Or.inl rfl), hsub⟩
      · exact ⟨pyRemove ' ' v, hbase _ (Or.inr rfl), hsub⟩
      · have he := subst_variant_dead text v 'ا' 'أ' (by decide)
          (fun c hc => (hch c hc).2.2.2.2.1) hsub
        rw [he] at hsub
        exact ⟨v, hbase v (Or.inl rfl), hsub⟩
      · have he := subst_variant_dead text v 'ا' 'إ' (by decide)
          (fun c hc => (hch c hc).2.2.2.2.2.1) hsub
        rw [he] at hsub
        exact ⟨v, hbase v (Or.inl rfl), hsub⟩
      · have he := subst_variant_dead text v 'ه' 'ة' (by decide)
          (fun c hc => (hch c hc).2.2.2.1) hsub
        rw [he] at hsub
        exact ⟨v, hbase v (Or.inl rfl), hsub⟩
    · rintro ⟨w, hw, hsub⟩
      rcases List.mem_flatMap.mp hw with ⟨v, hv, hwv⟩
      simp only [List.mem_cons, List.not_mem_nil, or_false] at hwv
      refine ⟨w, List.mem_flatMap.mpr ⟨v, hv, ?_⟩, hsub⟩
      rcases hwv with rfl | rfl <;> simp [extendWord]
  cases h1 : lexicon_match text with
  | true => exact (key.mp h1).symm
  | false =>
    cases h2 : lexicon_match_over bad_words_core text with
    | true => exact absurd (key.mpr h2) (by simp [h1])
    | false => rfl

/-- C9 counterexample: the validation accepts two empty credential strings
and returns them, so it does not require the credentials to be non-empty. -/
theorem get_api_keys_empty_accepted :
    get_api_keys_check "" "" = some ("", "") := by decide

/-- C9 amended: `get_api_keys` exits with an error message exactly when a
credential equals its placeholder value, and otherwise returns the pair of
credentials unchanged; emptiness is not checked. -/
theorem get_api_keys_placeholder_check (token key : String) :
    (get_api_keys_check token key = none ↔
      token = telegram_token_placeholder ∨ key = gemini_key_placeholder) ∧
    (token ≠ telegram_token_placeholder → key ≠ gemini_key_placeholder →
      get_api_keys_check token key = some (token, key)) := by
  constructor
  · unfold get_api_keys_check
    split_ifs with h
    · simp [h]
    · simp [h]
  · intro h1 h2
    have hc : ¬(token = telegram_token_placeholder ∨
        key = gemini_key_placeholder) := by
      rintro (h | h)
      · exact h1 h
      · exact h2 h
    unfold get_api_keys_check
    rw [if_neg hc]

/-- Witness for the amended C9 at the hardcoded credentials of the source. -/
theorem get_api_keys_placeholder_check_witness :
    get_api_keys_check TELEGRAM_BOT_TOKEN GOOGLE_GEMINI_API_KEY =
      some (TELEGRAM_BOT_TOKEN, GOOGLE_GEMINI_API_KEY) :=
  (get_api_keys_placeholder_check _ _).2 (by decide) (by decide)
